import Mathlib

/-!
Verification development for the `bluestaq_code_challenge` repository.

The repository has two parts: a single-elevator batch simulation
(described in `README.md` Section 2 and the specification; its Python
source `elevator.py` is not shipped in `src/`), and a poetry web client
(`src/app/script.js`, `src/app/errorHandler.js`).

The elevator scheduler is therefore modelled from the specification:
request queues per direction (up ascending, down descending, dedup by
floor), a SCAN-like state machine over {IDLE, MOVING_UP, MOVING_DOWN}
that drains the current-direction queue, reverses when it is exhausted,
services the current floor immediately when both queues hold it, and
goes idle when both queues are empty.  The web-client helpers
`validateInput`, `createPoetryUrl` and `handleHttpErrors` are embedded
directly from the JavaScript source.
-/

namespace Bluestaq

/-- Modelled from the spec: direction of a floor-call request
(`direction: enum{UP, DOWN}`). -/
inductive Dir where
  | UP
  | DOWN
deriving DecidableEq, Repr

/-- Modelled from the spec: a request is `{ floor: integer,
direction: enum{UP, DOWN} }`, immutable once created. -/
structure Request where
  floor : Int
  dir : Dir
deriving DecidableEq, Repr

/-- Modelled from the spec: insert a floor into the ascending-sorted,
duplicate-free up-queue (missing source `elevator.py`, queue builder of
spec section 4.1). -/
def insertUp (f : Int) : List Int → List Int
  | [] => [f]
  | x :: xs =>
    if f < x then f :: x :: xs
    else if f = x then x :: xs
    else x :: insertUp f xs

/-- Modelled from the spec: insert a floor into the descending-sorted,
duplicate-free down-queue (missing source `elevator.py`, queue builder of
spec section 4.1). -/
def insertDown (f : Int) : List Int → List Int
  | [] => [f]
  | x :: xs =>
    if x < f then f :: x :: xs
    else if f = x then x :: xs
    else x :: insertDown f xs

/-- Modelled from the spec: the up-queue built from a request batch
(ascending-sorted, deduplicated floors of the UP requests). -/
def buildUp : List Request → List Int
  | [] => []
  | r :: rs => if r.dir = Dir.UP then insertUp r.floor (buildUp rs) else buildUp rs

/-- Modelled from the spec: the down-queue built from a request batch
(descending-sorted, deduplicated floors of the DOWN requests). -/
def buildDown : List Request → List Int
  | [] => []
  | r :: rs => if r.dir = Dir.DOWN then insertDown r.floor (buildDown rs) else buildDown rs

theorem mem_insertUp (g f : Int) (q : List Int) :
    g ∈ insertUp f q ↔ g = f ∨ g ∈ q := by
  induction q with
  | nil => simp [insertUp]
  | cons x xs ih =>
    by_cases h1 : f < x
    · simp [insertUp, h1]
    · by_cases h2 : f = x
      · subst h2
        simp only [insertUp, h1, if_false, eq_self_iff_true, if_true]
        simp
      · simp only [insertUp, h1, h2, if_false, List.mem_cons, ih]
        tauto

theorem mem_insertDown (g f : Int) (q : List Int) :
    g ∈ insertDown f q ↔ g = f ∨ g ∈ q := by
  induction q with
  | nil => simp [insertDown]
  | cons x xs ih =>
    by_cases h1 : x < f
    · simp [insertDown, h1]
    · by_cases h2 : f = x
      · subst h2
        simp only [insertDown, h1, if_false, eq_self_iff_true, if_true]
        simp
      · simp only [insertDown, h1, h2, if_false, List.mem_cons, ih]
        tauto

theorem pairwise_insertUp (f : Int) (q : List Int)
    (h : q.Pairwise (· < ·)) : (insertUp f q).Pairwise (· < ·) := by
  induction q with
  | nil => simp [insertUp]
  | cons x xs ih =>
    rw [List.pairwise_cons] at h
    by_cases h1 : f < x
    · simp only [insertUp, h1, if_true]
      rw [List.pairwise_cons]
      constructor
      · intro b hb
        rcases List.mem_cons.mp hb with hb | hb
        · omega
        · exact lt_trans h1 (h.1 b hb)
      · rw [List.pairwise_cons]
        exact h
    · by_cases h2 : f = x
      · subst h2
        simp only [insertUp, h1, if_false, eq_self_iff_true, if_true]
        rw [List.pairwise_cons]
        exact h
      · simp only [insertUp, h1, h2, if_false]
        rw [List.pairwise_cons]
        constructor
        · intro b hb
          rcases (mem_insertUp b f xs).mp hb with hb | hb
          · subst hb
            omega
          · exact h.1 b hb
        · exact ih h.2

theorem pairwise_insertDown (f : Int) (q : List Int)
    (h : q.Pairwise (fun a b => b < a)) :
    (insertDown f q).Pairwise (fun a b => b < a) := by
  induction q with
  | nil => simp [insertDown]
  | cons x xs ih =>
    rw [List.pairwise_cons] at h
    by_cases h1 : x < f
    · simp only [insertDown, h1, if_true]
      rw [List.pairwise_cons]
      constructor
      · intro b hb
        rcases List.mem_cons.mp hb with hb | hb
        · omega
        · exact lt_trans (h.1 b hb) h1
      · rw [List.pairwise_cons]
        exact h
    · by_cases h2 : f = x
      · subst h2
        simp only [insertDown, h1, if_false, eq_self_iff_true, if_true]
        rw [List.pairwise_cons]
        exact h
      · simp only [insertDown, h1, h2, if_false]
        rw [List.pairwise_cons]
        constructor
        · intro b hb
          rcases (mem_insertDown b f xs).mp hb with hb | hb
          · subst hb
            omega
          · exact h.1 b hb
        · exact ih h.2

theorem mem_buildUp (f : Int) (reqs : List Request) :
    f ∈ buildUp reqs ↔ ∃ r ∈ reqs, r.floor = f ∧ r.dir = Dir.UP := by
  induction reqs with
  | nil => simp [buildUp]
  | cons r rs ih =>
    by_cases h : r.dir = Dir.UP
    · simp only [buildUp, h, if_true, mem_insertUp, ih]
      constructor
      · rintro (hf | ⟨a, ha, hfa, hda⟩)
        · exact ⟨r, List.mem_cons_self r rs, hf.symm, h⟩
        · exact ⟨a, List.mem_cons_of_mem r ha, hfa, hda⟩
      · rintro ⟨a, ha, hfa, hda⟩
        rcases List.mem_cons.mp ha with ha | ha
        · subst ha
          exact Or.inl hfa.symm
        · exact Or.inr ⟨a, ha, hfa, hda⟩
    · simp only [buildUp, h, if_false, ih]
      constructor
      · rintro ⟨a, ha, hfa, hda⟩
        exact ⟨a, List.mem_cons_of_mem r ha, hfa, hda⟩
      · rintro ⟨a, ha, hfa, hda⟩
        rcases List.mem_cons.mp ha with ha | ha
        · subst ha
          exact absurd hda h
        · exact ⟨a, ha, hfa, hda⟩

theorem mem_buildDown (f : Int) (reqs : List Request) :
    f ∈ buildDown reqs ↔ ∃ r ∈ reqs, r.floor = f ∧ r.dir = Dir.DOWN := by
  induction reqs with
  | nil => simp [buildDown]
  | cons r rs ih =>
    by_cases h : r.dir = Dir.DOWN
    · simp only [buildDown, h, if_true, mem_insertDown, ih]
      constructor
      · rintro (hf | ⟨a, ha, hfa, hda⟩)
        · exact ⟨r, List.mem_cons_self r rs, hf.symm, h⟩
        · exact ⟨a, List.mem_cons_of_mem r ha, hfa, hda⟩
      · rintro ⟨a, ha, hfa, hda⟩
        rcases List.mem_cons.mp ha with ha | ha
        · subst ha
          exact Or.inl hfa.symm
        · exact Or.inr ⟨a, ha, hfa, hda⟩
    · simp only [buildDown, h, if_false, ih]
      constructor
      · rintro ⟨a, ha, hfa, hda⟩
        exact ⟨a, List.mem_cons_of_mem r ha, hfa, hda⟩
      · rintro ⟨a, ha, hfa, hda⟩
        rcases List.mem_cons.mp ha with ha | ha
        · subst ha
          exact absurd hda h
        · exact ⟨a, ha, hfa, hda⟩

theorem pairwise_buildUp (reqs : List Request) :
    (buildUp reqs).Pairwise (· < ·) := by
  induction reqs with
  | nil => simp [buildUp]
  | cons r rs ih =>
    by_cases h : r.dir = Dir.UP
    · simpa only [buildUp, h, if_true] using pairwise_insertUp r.floor _ ih
    · simpa only [buildUp, h, if_false] using ih

theorem pairwise_buildDown (reqs : List Request) :
    (buildDown reqs).Pairwise (fun a b => b < a) := by
  induction reqs with
  | nil => simp [buildDown]
  | cons r rs ih =>
    by_cases h : r.dir = Dir.DOWN
    · simpa only [buildDown, h, if_true] using pairwise_insertDown r.floor _ ih
    · simpa only [buildDown, h, if_false] using ih

/-- Modelled from the spec: elevator state-machine states
`{IDLE, MOVING_UP, MOVING_DOWN}`. -/
inductive EDir where
  | IDLE
  | MOVING_UP
  | MOVING_DOWN
deriving DecidableEq, Repr

/-- Modelled from the spec: the simulation context — current floor,
current direction, the two pending queues, and the serviced-floor log. -/
structure ElevState where
  currentFloor : Int
  currentDirection : EDir
  upQ : List Int
  downQ : List Int
  serviced : List Int
deriving DecidableEq, Repr

/-- Modelled from the spec: one transition of the scheduler state machine
(missing source `elevator.py`, spec section 4.2).  Tie-break first: when
both queues hold the current floor it is serviced immediately, regardless
of direction.  Otherwise the current-direction queue is drained in its
order; when it is exhausted the direction reverses if the opposite queue
is non-empty, else the elevator goes idle.  Servicing a floor removes it
from both queues.  `none` is the terminal state: IDLE with both queues
empty. -/
def step (s : ElevState) : Option ElevState :=
  if s.currentFloor ∈ s.upQ ∧ s.currentFloor ∈ s.downQ then
    some { s with upQ := s.upQ.erase s.currentFloor,
                  downQ := s.downQ.erase s.currentFloor,
                  serviced := s.serviced ++ [s.currentFloor] }
  else
    match s.currentDirection with
    | EDir.IDLE =>
      match s.upQ, s.downQ with
      | [], [] => none
      | _ :: _, _ => some { s with currentDirection := EDir.MOVING_UP }
      | [], _ :: _ => some { s with currentDirection := EDir.MOVING_DOWN }
    | EDir.MOVING_UP =>
      match s.upQ with
      | f :: rest =>
        some { currentFloor := f, currentDirection := EDir.MOVING_UP,
               upQ := rest, downQ := s.downQ.erase f,
               serviced := s.serviced ++ [f] }
      | [] =>
        match s.downQ with
        | [] => some { s with currentDirection := EDir.IDLE }
        | _ :: _ => some { s with currentDirection := EDir.MOVING_DOWN }
    | EDir.MOVING_DOWN =>
      match s.downQ with
      | f :: rest =>
        some { currentFloor := f, currentDirection := EDir.MOVING_DOWN,
               upQ := s.upQ.erase f, downQ := rest,
               serviced := s.serviced ++ [f] }
      | [] =>
        match s.upQ with
        | [] => some { s with currentDirection := EDir.IDLE }
        | _ :: _ => some { s with currentDirection := EDir.MOVING_UP }

/-- Weight of the direction component in the termination measure of the
state machine: non-servicing transitions strictly lower it. -/
def dirWeight : EDir → List Int → List Int → Nat
  | EDir.IDLE, u, d => if u = [] ∧ d = [] then 0 else 2
  | EDir.MOVING_UP, u, _ => if u = [] then 1 else 0
  | EDir.MOVING_DOWN, _, d => if d = [] then 1 else 0

/-- Termination measure: every `step` strictly decreases it. -/
def stepMeasure (s : ElevState) : Nat :=
  3 * (s.upQ.length + s.downQ.length) +
    dirWeight s.currentDirection s.upQ s.downQ

/-- Iterate `step` up to a fuel bound; the fuel `stepMeasure` always
suffices to reach the terminal state. -/
def runFuel : Nat → ElevState → ElevState
  | 0, s => s
  | n + 1, s =>
    match step s with
    | none => s
    | some t => runFuel n t

/-- Modelled from the spec: run the simulation from a state to its
terminal state. -/
def run (s : ElevState) : ElevState := runFuel (stepMeasure s) s

/-- Modelled from the spec: initial state — IDLE at the configured
starting floor, queues built once from the full request batch. -/
def initState (start : Int) (reqs : List Request) : ElevState :=
  { currentFloor := start, currentDirection := EDir.IDLE,
    upQ := buildUp reqs, downQ := buildDown reqs, serviced := [] }

/-- Modelled from the spec: the serviced-floor sequence produced by the
elevator simulation for a request batch and a starting floor. -/
def serviceOrder (start : Int) (reqs : List Request) : List Int :=
  (run (initState start reqs)).serviced

theorem dirWeight_le (d : EDir) (u dq : List Int) : dirWeight d u dq ≤ 2 := by
  cases d <;> simp only [dirWeight] <;> split <;> omega

theorem stepMeasure_lt {s t : ElevState} (h : step s = some t) :
    stepMeasure t < stepMeasure s := by
  unfold step at h
  split at h
  · rename_i hc
    rw [Option.some.injEq] at h
    subst h
    have hu := List.length_erase_of_mem hc.1
    have hd := List.length_erase_of_mem hc.2
    have hu1 : 0 < s.upQ.length := List.length_pos_of_mem hc.1
    have hd1 : 0 < s.downQ.length := List.length_pos_of_mem hc.2
    have hb := dirWeight_le s.currentDirection (s.upQ.erase s.currentFloor)
      (s.downQ.erase s.currentFloor)
    simp only [stepMeasure] at *
    omega
  · rename_i hc
    cases hdir : s.currentDirection with
    | IDLE =>
      rw [hdir] at h
      rcases hup : s.upQ with _ | ⟨x, xs⟩ <;> rcases hdown : s.downQ with _ | ⟨y, ys⟩ <;>
        rw [hup, hdown] at h <;> simp only [Option.some.injEq] at h
      · cases h
      all_goals subst h
      all_goals simp only [stepMeasure, dirWeight, hdir, hup, hdown]
      all_goals simp
    | MOVING_UP =>
      rw [hdir] at h
      rcases hup : s.upQ with _ | ⟨x, xs⟩ <;> rw [hup] at h
      · rcases hdown : s.downQ with _ | ⟨y, ys⟩ <;> rw [hdown] at h <;>
          simp only [Option.some.injEq] at h <;> subst h <;>
          simp [stepMeasure, dirWeight, hdir, hup, hdown]
      · simp only [Option.some.injEq] at h
        subst h
        have hd : (s.downQ.erase x).length ≤ s.downQ.length :=
          List.Sublist.length_le (List.erase_sublist x s.downQ)
        simp only [stepMeasure, dirWeight, hdir, hup, List.length_cons]
        rw [if_neg (List.cons_ne_nil x xs)]
        split <;> omega
    | MOVING_DOWN =>
      rw [hdir] at h
      rcases hdown : s.downQ with _ | ⟨y, ys⟩ <;> rw [hdown] at h
      · rcases hup : s.upQ with _ | ⟨x, xs⟩ <;> rw [hup] at h <;>
          simp only [Option.some.injEq] at h <;> subst h <;>
          simp [stepMeasure, dirWeight, hdir, hup, hdown]
      · simp only [Option.some.injEq] at h
        subst h
        have hu : (s.upQ.erase y).length ≤ s.upQ.length :=
          List.Sublist.length_le (List.erase_sublist y s.upQ)
        simp only [stepMeasure, dirWeight, hdir, hdown, List.length_cons]
        rw [if_neg (List.cons_ne_nil y ys)]
        split <;> omega

theorem step_eq_none_iff {s : ElevState} :
    step s = none ↔
      s.currentDirection = EDir.IDLE ∧ s.upQ = [] ∧ s.downQ = [] := by
  constructor
  · intro h
    unfold step at h
    split at h
    · cases h
    · cases hdir : s.currentDirection with
      | IDLE =>
        rw [hdir] at h
        rcases hup : s.upQ with _ | ⟨x, xs⟩ <;> rcases hdown : s.downQ with _ | ⟨y, ys⟩ <;>
          rw [hup, hdown] at h
        · exact ⟨rfl, rfl, rfl⟩
        all_goals cases h
      | MOVING_UP =>
        rw [hdir] at h
        rcases hup : s.upQ with _ | ⟨x, xs⟩ <;> rw [hup] at h
        · rcases hdown : s.downQ with _ | ⟨y, ys⟩ <;> rw [hdown] at h <;> cases h
        · cases h
      | MOVING_DOWN =>
        rw [hdir] at h
        rcases hdown : s.downQ with _ | ⟨y, ys⟩ <;> rw [hdown] at h
        · rcases hup : s.upQ with _ | ⟨x, xs⟩ <;> rw [hup] at h <;> cases h
        · cases h
  · rintro ⟨h1, h2, h3⟩
    simp [step, h1, h2, h3]

theorem step_runFuel (n : Nat) :
    ∀ s : ElevState, stepMeasure s ≤ n → step (runFuel n s) = none := by
  induction n with
  | zero =>
    intro s hs
    have h0 : stepMeasure s = 0 := Nat.le_zero.mp hs
    have hlen : s.upQ.length = 0 ∧ s.downQ.length = 0 := by
      simp only [stepMeasure] at h0
      omega
    have hup : s.upQ = [] := List.length_eq_zero.mp hlen.1
    have hdown : s.downQ = [] := List.length_eq_zero.mp hlen.2
    have hw : dirWeight s.currentDirection s.upQ s.downQ = 0 := by
      simp only [stepMeasure] at h0
      omega
    rw [hup, hdown] at hw
    cases hdir : s.currentDirection with
    | IDLE =>
      simp only [runFuel]
      rw [step_eq_none_iff]
      exact ⟨hdir, hup, hdown⟩
    | MOVING_UP =>
      rw [hdir] at hw
      simp [dirWeight] at hw
    | MOVING_DOWN =>
      rw [hdir] at hw
      simp [dirWeight] at hw
  | succ n ih =>
    intro s hs
    cases h : step s with
    | none =>
      simp only [runFuel, h]
    | some t =>
      have hlt := stepMeasure_lt h
      simp only [runFuel, h]
      exact ih t (by omega)

theorem step_run (s : ElevState) : step (run s) = none :=
  step_runFuel _ s le_rfl

/-- Queue sortedness invariant of the simulation: the up-queue is
strictly ascending and the down-queue strictly descending. -/
def QInv (s : ElevState) : Prop :=
  s.upQ.Pairwise (· < ·) ∧ s.downQ.Pairwise (fun a b => b < a)

theorem qinv_step {s t : ElevState} (h : step s = some t) (hq : QInv s) :
    QInv t := by
  unfold step at h
  split at h
  · rw [Option.some.injEq] at h
    subst h
    exact ⟨hq.1.sublist (List.erase_sublist _ _), hq.2.sublist (List.erase_sublist _ _)⟩
  · cases hdir : s.currentDirection with
    | IDLE =>
      rw [hdir] at h
      rcases hup : s.upQ with _ | ⟨x, xs⟩ <;> rcases hdown : s.downQ with _ | ⟨y, ys⟩ <;>
        rw [hup, hdown] at h
      · cases h
      all_goals rw [Option.some.injEq] at h
      all_goals subst h
      all_goals exact ⟨hup ▸ hq.1, hdown ▸ hq.2⟩
    | MOVING_UP =>
      rw [hdir] at h
      rcases hup : s.upQ with _ | ⟨x, xs⟩ <;> rw [hup] at h
      · rcases hdown : s.downQ with _ | ⟨y, ys⟩ <;> rw [hdown] at h <;>
          rw [Option.some.injEq] at h <;> subst h <;>
          exact ⟨hup ▸ hq.1, hdown ▸ hq.2⟩
      · rw [Option.some.injEq] at h
        subst h
        have h1 : xs.Pairwise (· < ·) := by
          have := hq.1
          rw [hup, List.pairwise_cons] at this
          exact this.2
        exact ⟨h1, hq.2.sublist (List.erase_sublist _ _)⟩
    | MOVING_DOWN =>
      rw [hdir] at h
      rcases hdown : s.downQ with _ | ⟨y, ys⟩ <;> rw [hdown] at h
      · rcases hup : s.upQ with _ | ⟨x, xs⟩ <;> rw [hup] at h <;>
          rw [Option.some.injEq] at h <;> subst h <;>
          exact ⟨hup ▸ hq.1, hdown ▸ hq.2⟩
      · rw [Option.some.injEq] at h
        subst h
        have h1 : ys.Pairwise (fun a b => b < a) := by
          have := hq.2
          rw [hdown, List.pairwise_cons] at this
          exact this.2
        exact ⟨hq.1.sublist (List.erase_sublist _ _), h1⟩

/-- Number of queues (0 or 1, counting both as one pending service) in
which a floor is still pending. -/
def inQueues (s : ElevState) (f : Int) : Nat :=
  if f ∈ s.upQ ∨ f ∈ s.downQ then 1 else 0

theorem count_step {s t : ElevState} (h : step s = some t) (hq : QInv s)
    (f : Int) :
    t.serviced.count f + inQueues t f = s.serviced.count f + inQueues s f := by
  have hnodupU : s.upQ.Nodup := hq.1.imp (fun hab => ne_of_lt hab)
  have hnodupD : s.downQ.Nodup := hq.2.imp (fun hab => ne_of_gt hab)
  unfold step at h
  split at h
  · rename_i hc
    rw [Option.some.injEq] at h
    subst h
    by_cases hf : f = s.currentFloor
    · subst hf
      have h1 : s.currentFloor ∉ s.upQ.erase s.currentFloor := hnodupU.not_mem_erase
      have h2 : s.currentFloor ∉ s.downQ.erase s.currentFloor := hnodupD.not_mem_erase
      simp [inQueues, List.count_append, List.count_singleton', h1, h2, hc.1, hc.2]
    · have h1 : f ∈ s.upQ.erase s.currentFloor ↔ f ∈ s.upQ :=
        List.mem_erase_of_ne hf
      have h2 : f ∈ s.downQ.erase s.currentFloor ↔ f ∈ s.downQ :=
        List.mem_erase_of_ne hf
      simp [inQueues, List.count_append, List.count_singleton', h1, h2, Ne.symm hf]
  · cases hdir : s.currentDirection with
    | IDLE =>
      rw [hdir] at h
      rcases hup : s.upQ with _ | ⟨x, xs⟩ <;> rcases hdown : s.downQ with _ | ⟨y, ys⟩ <;>
        rw [hup, hdown] at h
      · cases h
      all_goals rw [Option.some.injEq] at h
      all_goals subst h
      all_goals simp [inQueues, hup, hdown]
    | MOVING_UP =>
      rw [hdir] at h
      rcases hup : s.upQ with _ | ⟨x, xs⟩ <;> rw [hup] at h
      · rcases hdown : s.downQ with _ | ⟨y, ys⟩ <;> rw [hdown] at h <;>
          rw [Option.some.injEq] at h <;> subst h <;>
          simp [inQueues, hup, hdown]
      · rw [Option.some.injEq] at h
        subst h
        have hxnotin : x ∉ xs := by
          rw [hup] at hnodupU
          exact (List.nodup_cons.mp hnodupU).1
        by_cases hf : f = x
        · subst hf
          have h2 : f ∉ s.downQ.erase f := hnodupD.not_mem_erase
          simp [inQueues, List.count_append, List.count_singleton', hxnotin, h2, hup]
        · have h2 : f ∈ s.downQ.erase x ↔ f ∈ s.downQ := List.mem_erase_of_ne hf
          simp [inQueues, List.count_append, List.count_singleton', h2, hup,
            Ne.symm hf, hf]
    | MOVING_DOWN =>
      rw [hdir] at h
      rcases hdown : s.downQ with _ | ⟨y, ys⟩ <;> rw [hdown] at h
      · rcases hup : s.upQ with _ | ⟨x, xs⟩ <;> rw [hup] at h <;>
          rw [Option.some.injEq] at h <;> subst h <;>
          simp [inQueues, hup, hdown]
      · rw [Option.some.injEq] at h
        subst h
        have hynotin : y ∉ ys := by
          rw [hdown] at hnodupD
          exact (List.nodup_cons.mp hnodupD).1
        by_cases hf : f = y
        · subst hf
          have h2 : f ∉ s.upQ.erase f := hnodupU.not_mem_erase
          simp [inQueues, List.count_append, List.count_singleton', hynotin, h2, hdown]
        · have h2 : f ∈ s.upQ.erase y ↔ f ∈ s.upQ := List.mem_erase_of_ne hf
          simp [inQueues, List.count_append, List.count_singleton', h2, hdown,
            Ne.symm hf, hf]

theorem runFuel_count (n : Nat) :
    ∀ s : ElevState, QInv s → ∀ f : Int,
      (runFuel n s).serviced.count f + inQueues (runFuel n s) f =
        s.serviced.count f + inQueues s f := by
  induction n with
  | zero =>
    intro s _ f
    rfl
  | succ n ih =>
    intro s hq f
    cases h : step s with
    | none => simp only [runFuel, h]
    | some t =>
      simp only [runFuel, h]
      rw [ih t (qinv_step h hq) f, count_step h hq f]

theorem mem_queues_iff_requested (f : Int) (reqs : List Request) :
    (f ∈ buildUp reqs ∨ f ∈ buildDown reqs) ↔ f ∈ reqs.map Request.floor := by
  rw [mem_buildUp, mem_buildDown, List.mem_map]
  constructor
  · rintro (⟨r, hr, hf, _⟩ | ⟨r, hr, hf, _⟩) <;> exact ⟨r, hr, hf⟩
  · rintro ⟨r, hr, hf⟩
    cases hd : r.dir
    · exact Or.inl ⟨r, hr, hf, hd⟩
    · exact Or.inr ⟨r, hr, hf, hd⟩

/-- C1: for every batch of (floor, direction) requests and every starting
floor, each requested floor appears exactly once in the serviced-floor
sequence produced by the elevator simulation (and an unrequested floor
never appears): the multiplicity of a floor in the serviced sequence is 1
when it occurs in the batch and 0 otherwise. -/
theorem requested_floors_serviced_exactly_once (start : Int)
    (reqs : List Request) (f : Int) :
    (serviceOrder start reqs).count f =
      if f ∈ reqs.map Request.floor then 1 else 0 := by
  have hq : QInv (initState start reqs) :=
    ⟨pairwise_buildUp reqs, pairwise_buildDown reqs⟩
  have hterm := step_run (initState start reqs)
  rw [step_eq_none_iff] at hterm
  have hcnt2 : (run (initState start reqs)).serviced.count f +
      inQueues (run (initState start reqs)) f =
      (initState start reqs).serviced.count f +
        inQueues (initState start reqs) f :=
    runFuel_count (stepMeasure (initState start reqs)) (initState start reqs) hq f
  have h0 : inQueues (run (initState start reqs)) f = 0 := by
    simp [inQueues, hterm.2.1, hterm.2.2]
  rw [h0, Nat.add_zero] at hcnt2
  rw [serviceOrder, hcnt2]
  simp only [initState, List.count_nil, Nat.zero_add, inQueues]
  by_cases hmem : f ∈ reqs.map Request.floor
  · rw [if_pos hmem, if_pos ((mem_queues_iff_requested f reqs).mpr hmem)]
  · rw [if_neg hmem,
      if_neg (fun hcontra => hmem ((mem_queues_iff_requested f reqs).mp hcontra))]

/-- C2: for the batch [(5,UP), (2,DOWN), (8,UP)] with starting floor 0,
the scheduler services the upward floors 5 then 8, then reverses and
services 2: the serviced order is [5, 8, 2]. -/
theorem example_batch_serviced_order :
    serviceOrder 0 [⟨5, Dir.UP⟩, ⟨2, Dir.DOWN⟩, ⟨8, Dir.UP⟩] = [5, 8, 2] := by
  decide

/-- C3: a step never reverses the direction of travel while the queue
matching the current direction still holds a floor: every transition from
MOVING_UP to MOVING_DOWN happens with an empty up-queue, and every
transition from MOVING_DOWN to MOVING_UP with an empty down-queue. -/
theorem reversal_only_when_exhausted (s t : ElevState) (h : step s = some t) :
    (s.currentDirection = EDir.MOVING_UP →
      t.currentDirection = EDir.MOVING_DOWN → s.upQ = []) ∧
    (s.currentDirection = EDir.MOVING_DOWN →
      t.currentDirection = EDir.MOVING_UP → s.downQ = []) := by
  unfold step at h
  split at h
  · rw [Option.some.injEq] at h
    subst h
    constructor <;> intro h1 h2 <;> simp_all
  · cases hdir : s.currentDirection with
    | IDLE =>
      rw [hdir] at h
      rcases hup : s.upQ with _ | ⟨x, xs⟩ <;> rcases hdown : s.downQ with _ | ⟨y, ys⟩ <;>
        rw [hup, hdown] at h
      · cases h
      all_goals rw [Option.some.injEq] at h
      all_goals subst h
      all_goals constructor <;> intro h1 h2 <;> simp_all
    | MOVING_UP =>
      rw [hdir] at h
      rcases hup : s.upQ with _ | ⟨x, xs⟩ <;> rw [hup] at h
      · rcases hdown : s.downQ with _ | ⟨y, ys⟩ <;> rw [hdown] at h <;>
          rw [Option.some.injEq] at h <;> subst h <;>
          constructor <;> intro h1 h2 <;> simp_all
      · rw [Option.some.injEq] at h
        subst h
        constructor <;> intro h1 h2 <;> simp_all
    | MOVING_DOWN =>
      rw [hdir] at h
      rcases hdown : s.downQ with _ | ⟨y, ys⟩ <;> rw [hdown] at h
      · rcases hup : s.upQ with _ | ⟨x, xs⟩ <;> rw [hup] at h <;>
          rw [Option.some.injEq] at h <;> subst h <;>
          constructor <;> intro h1 h2 <;> simp_all
      · rw [Option.some.injEq] at h
        subst h
        constructor <;> intro h1 h2 <;> simp_all

/-- Witness for the reversal theorem: a concrete reversing step, whose
up-queue is indeed empty. -/
theorem reversal_only_when_exhausted_witness :
    (⟨7, EDir.MOVING_UP, [], [3], []⟩ : ElevState).upQ = [] :=
  (reversal_only_when_exhausted ⟨7, EDir.MOVING_UP, [], [3], []⟩
    ⟨7, EDir.MOVING_DOWN, [], [3], []⟩ (by decide)).1 rfl rfl

/-- C4: whenever both queues contain a floor equal to the elevator's
current floor, the next step services that floor immediately, regardless
of the current direction (the floor is logged and removed from both
queues, position and direction unchanged); and for the batch [(3,UP)]
with starting floor 3 the serviced order is [3] with the elevator left at
floor 3 (no movement). -/
theorem tie_break_services_current_floor (s : ElevState)
    (h1 : s.currentFloor ∈ s.upQ) (h2 : s.currentFloor ∈ s.downQ) :
    step s = some { s with upQ := s.upQ.erase s.currentFloor,
                           downQ := s.downQ.erase s.currentFloor,
                           serviced := s.serviced ++ [s.currentFloor] } ∧
    serviceOrder 3 [⟨3, Dir.UP⟩] = [3] ∧
    (run (initState 3 [⟨3, Dir.UP⟩])).currentFloor = 3 := by
  refine ⟨?_, by decide, by decide⟩
  simp [step, h1, h2]

/-- Witness for the tie-break theorem at a concrete state where both
queues hold the current floor. -/
theorem tie_break_services_current_floor_witness :
    step ⟨4, EDir.IDLE, [4], [4], []⟩ = some ⟨4, EDir.IDLE, [], [], [4]⟩ ∧
    serviceOrder 3 [⟨3, Dir.UP⟩] = [3] ∧
    (run (initState 3 [⟨3, Dir.UP⟩])).currentFloor = 3 :=
  tie_break_services_current_floor ⟨4, EDir.IDLE, [4], [4], []⟩
    (by decide) (by decide)

/-- C7: for the empty request batch and any starting floor, the produced
serviced sequence is empty and the simulation terminates IDLE at the
starting floor with both queues empty. -/
theorem empty_batch_idle (start : Int) :
    serviceOrder start [] = [] ∧
    (run (initState start [])).currentDirection = EDir.IDLE ∧
    (run (initState start [])).currentFloor = start ∧
    (run (initState start [])).upQ = [] ∧
    (run (initState start [])).downQ = [] :=
  ⟨rfl, rfl, rfl, rfl, rfl⟩

/-- C5: for every list of (floor, direction) pairs the queue builder
returns an up-queue holding exactly the distinct UP floors in strictly
ascending order and a down-queue holding exactly the distinct DOWN floors
in strictly descending order; it is a total function with no error
outcome, and the empty input yields two empty queues. -/
theorem queue_builder_contract (reqs : List Request) :
    (buildUp reqs).Pairwise (· < ·) ∧
    (buildDown reqs).Pairwise (fun a b => b < a) ∧
    (∀ f : Int, f ∈ buildUp reqs ↔ ∃ r ∈ reqs, r.floor = f ∧ r.dir = Dir.UP) ∧
    (∀ f : Int, f ∈ buildDown reqs ↔ ∃ r ∈ reqs, r.floor = f ∧ r.dir = Dir.DOWN) ∧
    buildUp [] = [] ∧ buildDown [] = [] :=
  ⟨pairwise_buildUp reqs, pairwise_buildDown reqs,
   fun f => mem_buildUp f reqs, fun f => mem_buildDown f reqs, rfl, rfl⟩

/-- Modelled from the spec: queue building with validation against the
configured building range [lo, hi] (missing source `elevator.py`, spec
section 7): a request whose floor lies outside the range is rejected with
an InvalidRequest error at queue-build time; otherwise the two queues are
built. -/
def buildQueuesChecked (lo hi : Int) (reqs : List Request) :
    Except String (List Int × List Int) :=
  if reqs.all (fun r => decide (lo ≤ r.floor) && decide (r.floor ≤ hi)) then
    Except.ok (buildUp reqs, buildDown reqs)
  else
    Except.error "InvalidRequest"

/-- C6: queue building errors with InvalidRequest exactly when some
request floor is outside the configured building range; on success it
returns the validated queues unchanged; and the scheduler itself never
fails on validated state: from any state the simulation runs to the
terminal state. -/
theorem invalid_request_iff (lo hi : Int) (reqs : List Request) :
    (buildQueuesChecked lo hi reqs = Except.error "InvalidRequest" ↔
      ∃ r ∈ reqs, r.floor < lo ∨ hi < r.floor) ∧
    (∀ q, buildQueuesChecked lo hi reqs = Except.ok q →
      q = (buildUp reqs, buildDown reqs)) ∧
    (∀ s : ElevState, step (run s) = none) := by
  refine ⟨?_, ?_, fun s => step_run s⟩
  · unfold buildQueuesChecked
    by_cases hall : ∀ r ∈ reqs, lo ≤ r.floor ∧ r.floor ≤ hi
    · have hcond : reqs.all (fun r => decide (lo ≤ r.floor) && decide (r.floor ≤ hi))
          = true := by
        rw [List.all_eq_true]
        intro r hr
        have := hall r hr
        simp [this.1, this.2]
      rw [if_pos hcond]
      constructor
      · intro h
        exact absurd h (by simp)
      · rintro ⟨r, hr, hout⟩
        have := hall r hr
        omega
    · have hcond : ¬(reqs.all (fun r => decide (lo ≤ r.floor) && decide (r.floor ≤ hi))
          = true) := by
        rw [List.all_eq_true]
        intro hc
        apply hall
        intro r hr
        have := hc r hr
        simpa using this
      rw [if_neg hcond]
      constructor
      · intro _
        rcases not_forall.mp hall with ⟨r, hnr⟩
        rw [Classical.not_imp] at hnr
        have h2 := hnr.2
        simp only [not_and_or, not_le] at h2
        exact ⟨r, hnr.1, h2⟩
      · intro _
        rfl
  · intro q hq
    unfold buildQueuesChecked at hq
    split at hq
    · rw [Except.ok.injEq] at hq
      exact hq.symm
    · cases hq

/-- Witness for the validation theorem: one concrete out-of-range request
is rejected with InvalidRequest. -/
theorem invalid_request_iff_witness :
    buildQueuesChecked 0 10 [⟨99, Dir.UP⟩] = Except.error "InvalidRequest" :=
  (invalid_request_iff 0 10 [⟨99, Dir.UP⟩]).1.mpr
    ⟨⟨99, Dir.UP⟩, by decide, by decide⟩

/-- ASCII letter, the character class `a-zA-Z` of the validation regexes
in `src/app/script.js`. -/
def isAsciiLetter (c : Char) : Bool :=
  (97 ≤ c.toNat && c.toNat ≤ 122) || (65 ≤ c.toNat && c.toNat ≤ 90)

/-- ASCII digit, the character class `0-9` of the title regex in
`src/app/script.js`. -/
def isDigitChar (c : Char) : Bool :=
  48 ≤ c.toNat && c.toNat ≤ 57

/-- The JavaScript regex class `\s` (whitespace): tab, line feed,
vertical tab, form feed, carriage return, space, no-break space, BOM and
the Unicode space separators. -/
def isJsWhitespace (c : Char) : Bool :=
  List.contains
    [9, 10, 11, 12, 13, 32, 160, 0x1680, 0x2000, 0x2001, 0x2002, 0x2003,
     0x2004, 0x2005, 0x2006, 0x2007, 0x2008, 0x2009, 0x200A, 0x2028,
     0x2029, 0x202F, 0x205F, 0x3000, 0xFEFF] c.toNat

/-- Embeds `invalidAuthorPattern.test` of `src/app/script.js` on one
character: matches anything outside letters and whitespace. -/
def invalidAuthorChar (c : Char) : Bool :=
  !(isAsciiLetter c || isJsWhitespace c)

/-- Embeds `invalidTitlePattern.test` of `src/app/script.js` on one
character: matches anything outside letters, digits and whitespace. -/
def invalidTitleChar (c : Char) : Bool :=
  !(isAsciiLetter c || isDigitChar c || isJsWhitespace c)

/-- The both-empty validation message of `validateInput`. -/
def msgBothEmpty : String :=
  "Please enter either an author name, title, or both."

/-- The invalid-author validation message of `validateInput`. -/
def msgInvalidAuthor : String :=
  "Please enter a valid author name with letters and spaces only."

/-- The invalid-title validation message of `validateInput`. -/
def msgInvalidTitle : String :=
  "Please enter a valid title with letters, numbers, and spaces only."

/-- Embeds `validateInput` of `src/app/script.js` (strings as character
lists; JavaScript string truthiness is non-emptiness): returns the first
applicable error message, or none when the inputs validate. -/
def validateInput (author title : List Char) : Option String :=
  if author = [] ∧ title = [] then some msgBothEmpty
  else if author ≠ [] ∧ author.any invalidAuthorChar then some msgInvalidAuthor
  else if title ≠ [] ∧ title.any invalidTitleChar then some msgInvalidTitle
  else none

/-- C8: `validateInput` returns null exactly when at least one input is
non-empty, every author character is a letter or whitespace, and every
title character is a letter, digit or whitespace; otherwise it returns
the first applicable message in the order both-empty, invalid-author,
invalid-title. -/
theorem validateInput_spec (author title : List Char) :
    (validateInput author title = none ↔
      ((author ≠ [] ∨ title ≠ []) ∧
        (∀ c ∈ author, isAsciiLetter c = true ∨ isJsWhitespace c = true) ∧
        (∀ c ∈ title, isAsciiLetter c = true ∨ isDigitChar c = true ∨
          isJsWhitespace c = true))) ∧
    (author = [] → title = [] → validateInput author title = some msgBothEmpty) ∧
    ((∃ c ∈ author, invalidAuthorChar c = true) →
      validateInput author title = some msgInvalidAuthor) ∧
    ((∀ c ∈ author, invalidAuthorChar c = false) →
      (∃ c ∈ title, invalidTitleChar c = true) →
      validateInput author title = some msgInvalidTitle) := by
  refine ⟨?_, ?_, ?_, ?_⟩
  · unfold validateInput
    split_ifs with h1 h2 h3
    · simp only [h1.1, h1.2]
      simp
    · constructor
      · intro hc
        cases hc
      · rintro ⟨-, hva, -⟩
        obtain ⟨c, hc, hinv⟩ := List.any_eq_true.mp h2.2
        have hgood := hva c hc
        simp only [invalidAuthorChar, Bool.not_eq_true', Bool.or_eq_false_iff]
          at hinv
        rcases hgood with hg | hg
        · rw [hg] at hinv
          cases hinv.1
        · rw [hg] at hinv
          cases hinv.2
    · constructor
      · intro hc
        cases hc
      · rintro ⟨-, -, hvt⟩
        obtain ⟨c, hc, hinv⟩ := List.any_eq_true.mp h3.2
        have hgood := hvt c hc
        simp only [invalidTitleChar, Bool.not_eq_true', Bool.or_eq_false_iff]
          at hinv
        rcases hgood with hg | hg | hg
        · rw [hg] at hinv
          cases hinv.1.1
        · rw [hg] at hinv
          cases hinv.1.2
        · rw [hg] at hinv
          cases hinv.2
    · constructor
      · intro _
        refine ⟨?_, ?_, ?_⟩
        · by_cases ha : author = []
          · right
            intro ht
            exact h1 ⟨ha, ht⟩
          · exact Or.inl ha
        · intro c hc
          have hane : author ≠ [] := by
            intro he
            rw [he] at hc
            cases hc
          have hnoany : ¬(author.any invalidAuthorChar = true) :=
            fun ha => h2 ⟨hane, ha⟩
          rw [List.any_eq_true] at hnoany
          push_neg at hnoany
          have hB := hnoany c hc
          cases hA : isAsciiLetter c with
          | true => exact Or.inl rfl
          | false =>
            cases hW : isJsWhitespace c with
            | true => exact Or.inr rfl
            | false =>
              exact absurd (by simp [invalidAuthorChar, hA, hW]) hB
        · intro c hc
          have htne : title ≠ [] := by
            intro he
            rw [he] at hc
            cases hc
          have hnoany : ¬(title.any invalidTitleChar = true) :=
            fun ha => h3 ⟨htne, ha⟩
          rw [List.any_eq_true] at hnoany
          push_neg at hnoany
          have hB := hnoany c hc
          cases hA : isAsciiLetter c with
          | true => exact Or.inl rfl
          | false =>
            cases hD : isDigitChar c with
            | true => exact Or.inr (Or.inl rfl)
            | false =>
              cases hW : isJsWhitespace c with
              | true => exact Or.inr (Or.inr rfl)
              | false =>
                exact absurd (by simp [invalidTitleChar, hA, hD, hW]) hB
      · intro _
        rfl
  · intro ha ht
    rw [validateInput, if_pos ⟨ha, ht⟩]
  · rintro ⟨c, hc, hinv⟩
    have hane : author ≠ [] := by
      intro he
      rw [he] at hc
      cases hc
    rw [validateInput, if_neg (fun hb => hane hb.1),
      if_pos ⟨hane, List.any_eq_true.mpr ⟨c, hc, hinv⟩⟩]
  · intro hva ⟨c, hc, hinv⟩
    have htne : title ≠ [] := by
      intro he
      rw [he] at hc
      cases hc
    have hnoany : ¬(author ≠ [] ∧ author.any invalidAuthorChar = true) := by
      rintro ⟨-, hany⟩
      obtain ⟨d, hd, hdi⟩ := List.any_eq_true.mp hany
      rw [hva d hd] at hdi
      cases hdi
    rw [validateInput, if_neg (fun hb => htne hb.2), if_neg hnoany,
      if_pos ⟨htne, List.any_eq_true.mpr ⟨c, hc, hinv⟩⟩]

/-- Witness for the validation theorem: a concrete author with an
invalid character yields the invalid-author message. -/
theorem validateInput_spec_witness :
    validateInput [Char.ofNat 64] [Char.ofNat 120] = some msgInvalidAuthor :=
  (validateInput_spec [Char.ofNat 64] [Char.ofNat 120]).2.2.1
    ⟨Char.ofNat 64, by decide, by decide⟩

/-- Embeds `handleHttpErrors` of `src/app/errorHandler.js`: the function
always throws; the returned string is the message of the thrown Error for
the given HTTP status code. -/
def handleHttpErrors (status : Int) : String :=
  if status = 400 then "Bad Request: Please check the information you provided."
  else if status = 401 then "Unauthorized: Please log in and try again."
  else if status = 403 then
    "Forbidden: You do not have permission to access this resource."
  else if status = 404 then
    "Not Found: No matching results were found. Please try a different search."
  else if status = 429 then
    "Too Many Requests: Please wait a moment before trying again."
  else if status = 500 then
    "Internal Server Error: Something went wrong on our end. Please try again later."
  else if status = 502 then
    "Bad Gateway: The server received an invalid response. Please try again later."
  else if status = 503 then
    "Service Unavailable: The server is currently unavailable. Please try again later."
  else if status = 504 then
    "Gateway Timeout: The server took too long to respond. Please try again later."
  else "Unexpected error: " ++ toString status

/-- C9: `handleHttpErrors` throws on every status (modelled as always
producing an error message): each of the nine handled statuses yields its
specific message, and every other status yields the default message
"Unexpected error: <status>". -/
theorem handleHttpErrors_spec (status : Int) :
    handleHttpErrors 400 =
      "Bad Request: Please check the information you provided." ∧
    handleHttpErrors 401 = "Unauthorized: Please log in and try again." ∧
    handleHttpErrors 403 =
      "Forbidden: You do not have permission to access this resource." ∧
    handleHttpErrors 404 =
      "Not Found: No matching results were found. Please try a different search." ∧
    handleHttpErrors 429 =
      "Too Many Requests: Please wait a moment before trying again." ∧
    handleHttpErrors 500 =
      "Internal Server Error: Something went wrong on our end. Please try again later." ∧
    handleHttpErrors 502 =
      "Bad Gateway: The server received an invalid response. Please try again later." ∧
    handleHttpErrors 503 =
      "Service Unavailable: The server is currently unavailable. Please try again later." ∧
    handleHttpErrors 504 =
      "Gateway Timeout: The server took too long to respond. Please try again later." ∧
    (status ∉ ([400, 401, 403, 404, 429, 500, 502, 503, 504] : List Int) →
      handleHttpErrors status = "Unexpected error: " ++ toString status) := by
  refine ⟨rfl, rfl, rfl, rfl, rfl, rfl, rfl, rfl, rfl, ?_⟩
  intro h
  simp only [List.mem_cons, List.not_mem_nil, or_false, not_or] at h
  obtain ⟨h1, h2, h3, h4, h5, h6, h7, h8, h9⟩ := h
  simp [handleHttpErrors, h1, h2, h3, h4, h5, h6, h7, h8, h9]

/-- Witness for the default branch of `handleHttpErrors` at status 418. -/
theorem handleHttpErrors_spec_witness :
    handleHttpErrors 418 = "Unexpected error: " ++ toString (418 : Int) :=
  (handleHttpErrors_spec 418).2.2.2.2.2.2.2.2.2 (by decide)

/-- Embeds `BASE_URL` of `src/app/script.js`. -/
def BASE_URL : String := "https://poetrydb.org"

/-- Embeds `createPoetryUrl` of `src/app/script.js` (strings as character
lists; truthiness is non-emptiness).  The final `none` models the
implicit undefined return when both inputs are empty. -/
def createPoetryUrl (author title : List Char) : Option String :=
  if author ≠ [] ∧ title ≠ [] then
    some (BASE_URL ++ "/author,title/" ++ String.mk author ++ ";" ++
      String.mk title)
  else if author ≠ [] then some (BASE_URL ++ "/author/" ++ String.mk author)
  else if title ≠ [] then some (BASE_URL ++ "/title/" ++ String.mk title)
  else none

/-- C10: under the precondition that `validateInput` returned null — the
only condition under which `fetchPoetry` calls it — `createPoetryUrl`
takes one of its three explicit branches and returns a defined URL
string; the undefined-returning fall-through is unreachable. -/
theorem createPoetryUrl_defined (author title : List Char)
    (h : validateInput author title = none) :
    (createPoetryUrl author title).isSome = true := by
  have hne : ¬(author = [] ∧ title = []) := by
    intro hc
    rw [validateInput, if_pos hc] at h
    cases h
  unfold createPoetryUrl
  split
  · rfl
  · split
    · rfl
    · split
      · rfl
      · rename_i g1 g2 g3
        exact absurd ⟨not_not.mp g2, not_not.mp g3⟩ hne

/-- Witness for the URL-definedness theorem at a concrete valid input. -/
theorem createPoetryUrl_defined_witness :
    (createPoetryUrl [Char.ofNat 98] []).isSome = true :=
  createPoetryUrl_defined [Char.ofNat 98] [] (by decide)

end Bluestaq
